import Mathlib

/-!
Shallow embedding of `src/refactorAction.ts`: editor-side orchestration of
refactoring commands (apply-refactor-edit, move-file, move-static-member,
rename trigger).  Each handler is modelled as a pure function from its
inputs (server responses, the user's picker choice, a filesystem existence
predicate) to the ordered list of observable effects it performs
(messages, requests, edit application, command execution, document saves).
-/

namespace RefactorAction

/-- An editor URI.  `str` models `uri.toString()` and `fsPath` models
`uri.fsPath`; the TypeScript code derives one from the other through the
editor's `Uri` class, which we model by carrying both. -/
structure Uri where
  str : String
  fsPath : String
deriving DecidableEq, Repr

/-- One entry of `WorkspaceEdit.documentChanges`.  The TypeScript code
dispatches on the `kind` field: `'rename'`, `'delete'`, a missing kind
(a `TextDocumentEdit`, whose touched URI is `textDocument.uri`), and other
kinds such as `'create'` which `saveEdit` ignores. -/
inductive DocumentChange where
  | rename (oldUri newUri : String)
  | delete (uri : String)
  | create (uri : String)
  | textEdit (uri : String)
deriving DecidableEq, Repr

/-- A protocol `WorkspaceEdit`: `changes` is modelled by the list of its
keys (the touched URIs; only the keys are read by `saveEdit`), and
`documentChanges` by an ordered list of changes.  `none` models an absent
field. -/
structure WorkspaceEdit where
  changes : Option (List String)
  documentChanges : Option (List DocumentChange)
deriving DecidableEq, Repr

/-- A follow-up command carried by a refactor result. -/
structure CommandData where
  command : String
  arguments : Option (List String)
deriving DecidableEq, Repr

/-- The server's `RefactorWorkspaceEdit` result shape. -/
structure RefactorWorkspaceEdit where
  errorMessage : Option String
  edit : Option WorkspaceEdit
  command : Option CommandData
deriving DecidableEq, Repr

/-- A destination candidate returned by `GetMoveDestinationsRequest` for
`moveResource`.  `uri` is `none` when `packageNode.uri` is absent (the
TypeScript guards with `packageNode.uri ? Uri.parse(...) : null`). -/
structure PackageNode where
  uri : Option Uri
  path : String
  displayName : String
  isParentOfSelectedFile : Bool
deriving DecidableEq, Repr

/-- The `GetMoveDestinationsRequest` response used by `moveFile`. -/
structure MoveDestinations where
  destinations : Option (List PackageNode)
deriving DecidableEq, Repr

/-- A symbol returned by the `SearchSymbols` request.  `containerName` is
`none` when absent; the code treats an empty container name as falsy. -/
structure SymbolInfo where
  name : String
  containerName : Option String
deriving DecidableEq, Repr

/-- The `commandInfo` payload of the move-static-member command.  The field
`memeberType` models the misspelled property name the source reads on the
`71` comparison (`commandInfo.memeberType === 71`); callers in this
repository only ever set `memberType`. -/
structure CommandInfo where
  displayName : Option String
  enclosingTypeName : Option String
  memberType : Option Int
  memeberType : Option Int
  projectName : Option String
deriving DecidableEq, Repr

/-- The argument of the rename-trigger command (`RenamePosition`). -/
structure RenamePosition where
  uri : String
  offset : Nat
deriving DecidableEq, Repr

/-- A text document as seen by the rename trigger: its URI and
`positionAt`, mapping an offset to a (line, character) position. -/
structure TextDocumentModel where
  uri : String
  positionAt : Nat → Nat × Nat

/-- Observable effects a handler performs, in order. -/
inductive Effect where
  | showError (msg : String)
  | showWarning (msg : String)
  | showQuickPick (labels : List String)
  | sendGetMoveDestinations (moveKind : String) (sourceUris : List String)
  | sendSearchSymbols (query : String) (projectName : Option String)
  | sendMoveRequest (moveKind : String) (sourceUris : List String) (destination : String)
  | applyEdit (e : WorkspaceEdit)
  | executeCommand (name : String) (args : List String)
  | saveDoc (uri : String)
  | openDocument (uri : String)
  | executeRenameCommand (uri : String) (pos : Nat × Nat)
deriving DecidableEq, Repr

/-- JavaScript truthiness of an optional string: `undefined`/`null` and
the empty string are falsy. -/
def strTruthy : Option String → Bool
  | none => false
  | some s => s != ""

/-- `true` exactly on error/warning message boxes. -/
def isErrorReport : Effect → Bool
  | .showError _ => true
  | .showWarning _ => true
  | _ => false

/-- `true` exactly on warning message boxes. -/
def isWarning : Effect → Bool
  | .showWarning _ => true
  | _ => false

/-- `true` exactly on `MoveRequest` sends. -/
def isMoveRequest : Effect → Bool
  | .sendMoveRequest _ _ _ => true
  | _ => false

/-- `true` exactly on document saves. -/
def isSaveDoc : Effect → Bool
  | .saveDoc _ => true
  | _ => false

/-- `true` exactly on workspace-edit applications. -/
def isApplyEdit : Effect → Bool
  | .applyEdit _ => true
  | _ => false

/-- Insertion into a JavaScript `Set` modelled as an ordered
duplicate-free list: a no-op when present, else appended at the end. -/
def listAdd (s : List String) (u : String) : List String :=
  if u ∈ s then s else s ++ [u]

/-- Deletion from the modelled `Set`. -/
def listDel (s : List String) (u : String) : List String :=
  s.filter (fun v => v != u)

/-- One iteration of the `documentChanges` loop of `saveEdit` over the
`touchedFiles` set. -/
def touchedStep (s : List String) : DocumentChange → List String
  | .rename o n => if o ∈ s then listAdd (listDel s o) n else s
  | .delete u => listDel s u
  | .create _ => s
  | .textEdit u => listAdd s u

/-- The `touchedFiles` set computed by `saveEdit`: the keys of
`edit.changes`, then adjusted by each document change in order. -/
def touchedFiles (e : WorkspaceEdit) : List String :=
  (e.documentChanges.getD []).foldl touchedStep
    ((e.changes.getD []).foldl listAdd [])

/-- `saveEdit`: opens and saves every file of the `touchedFiles` set, in
set-iteration (insertion) order.  `openTextDocument` is modelled as
succeeding; the source's `document === null` guard is unreachable in the
editor API. -/
def saveEdit (e : WorkspaceEdit) : List Effect :=
  (touchedFiles e).map Effect.saveDoc

/-- `applyRefactorEdit`: on a truthy error message show it and stop;
otherwise apply the edit when present, then execute the follow-up command
with its arguments (an absent argument array and an empty one both spread
to a call with no extra arguments). -/
def applyRefactorEdit (refactorEdit : Option RefactorWorkspaceEdit) : List Effect :=
  match refactorEdit with
  | none => []
  | some r =>
    if strTruthy r.errorMessage then
      [Effect.showError (r.errorMessage.getD "")]
    else
      (match r.edit with
       | some e => [Effect.applyEdit e]
       | none => []) ++
      (match r.command with
       | some c => [Effect.executeCommand c.command (c.arguments.getD [])]
       | none => [])

/-- Index (within the character list) of the last `'/'` of a path, if any. -/
def lastSepIdx : List Char → Option Nat
  | [] => none
  | c :: cs =>
    match lastSepIdx cs with
    | some i => some (i + 1)
    | none => if c = '/' then some 0 else none

/-- Models Node's `path.dirname` for normalized POSIX paths: the prefix
before the last separator, `"."` when there is none, `"/"` for a
root-level entry. -/
def dirname (p : String) : String :=
  match lastSepIdx p.toList with
  | none => "."
  | some 0 => "/"
  | some i => String.mk (p.toList.take i)

/-- Path segments for Node's `path.relative`: `path.resolve` normalizes
both arguments, dropping empty segments (leading slash, double slashes)
and `.` segments. -/
def pathSegs (p : String) : List String :=
  (p.splitOn "/").filter fun s => s != "" && s != "."

/-- Drops the longest common prefix of two segment lists, returning the
two remainders. -/
def dropCommon : List String → List String → List String × List String
  | a :: as, b :: bs => if a = b then dropCommon as bs else (a :: as, b :: bs)
  | as, bs => (as, bs)

/-- Joins relative-path pieces with `/` (no leading or trailing
separator), as Node's `path.relative` formats its result. -/
def joinRel : List String → String
  | [] => ""
  | [s] => s
  | s :: rest => s ++ "/" ++ joinRel rest

/-- Models Node's `path.relative` for normalized paths: one `..` per
remaining segment of `fromP` after the common prefix, followed by the
remaining segments of `toP`.  Identical paths give the empty string —
Node documents a zero-length result there, and `path.relative` never
returns `"."` for any input. -/
def pathRelative (fromP toP : String) : String :=
  let p := dropCommon (pathSegs fromP) (pathSegs toP)
  joinRel (List.replicate p.1.length ".." ++ p.2)

/-- `hasCommonParent`: at most one URI always passes; otherwise the loop
requires `path.relative(firstParent, parent)` to be `'.'` for every
further URI.  Since Node's `path.relative` never produces `'.'` (equal
paths give `''`), the check in fact rejects every selection of two or
more files. -/
def hasCommonParent (uris : List Uri) : Bool :=
  match uris with
  | [] => true
  | u :: rest => rest.all fun v => pathRelative (dirname u.fsPath) (dirname v.fsPath) == "."

/-- `getFileNameFromUri`: `fsPath.replace(/^.*[\\\/]/, '')`, the suffix
after the last slash or backslash. -/
def getFileNameFromUri (fsPath : String) : String :=
  String.mk (fsPath.toList.foldl
    (fun acc c => if c = '/' ∨ c = '\\' then [] else acc ++ [c]) [])

/-- Models Node's `path.join` of a normalized directory and a file name. -/
def pathJoin (dir fileName : String) : String :=
  dir ++ "/" ++ fileName

/-- The `existsSync` collision test of `moveFile` for one selected file
against the destination directory, over a filesystem `fs`. -/
def collides (fs : String → Bool) (destFsPath : String) (u : Uri) : Bool :=
  fs (pathJoin destFsPath (getFileNameFromUri u.fsPath))

/-- The warning text of `moveFile` for skipped duplicates:
`The files '<names joined by ,>' already exist in the package '<name>'.
The move operation will ignore them.` -/
def duplicateWarningText (duplicatedFiles : List String) (packageName : String) : String :=
  "The files '" ++ String.intercalate "," duplicatedFiles ++
    "' already exist in the package '" ++ packageName ++
    "'. The move operation will ignore them."

/-- The different-directories error message of `moveFile`. -/
def diffDirErrorMsg : String :=
  "Moving files from different directories are not supported. Please make sure they are from the same directory."

/-- The no-destinations error message of `moveFile`. -/
def noPackagesErrorMsg : String :=
  "Cannot find available Java packages to move the selected files to."

/-- A picker item of the move-file flow (the display-only `description`
field is omitted). -/
structure PackageItem where
  label : String
  packageNode : PackageNode
deriving DecidableEq, Repr

/-- The picker items built from the destination candidates: parents of a
selected file are starred. -/
def packageItems (dests : List PackageNode) : List PackageItem :=
  dests.map fun pn =>
    ⟨(if pn.isParentOfSelectedFile then "* " else "") ++ pn.displayName, pn⟩

/-- Tail of `moveFile` after a destination is picked and (possibly
filtered) source URIs are fixed: send the `MoveRequest`, apply the
result, and when the result carries an edit run `saveEdit` on it. -/
def sendAndApply (fileUris : List Uri) (pn : PackageNode)
    (moveResp : Option RefactorWorkspaceEdit) : List Effect :=
  Effect.sendMoveRequest "moveResource" (fileUris.map (·.str)) pn.displayName ::
    (applyRefactorEdit moveResp ++
      match moveResp with
      | some r =>
        (match r.edit with
         | some e => saveEdit e
         | none => [])
      | none => [])

/-- The post-pick phase of `moveFile`: when the chosen package has a URI
with a non-empty `fsPath`, split the selection into colliding and
non-colliding files, warn about the former, stop if nothing is left, and
move the rest; otherwise move the whole selection. -/
def moveFileCommit (fileUris : List Uri) (pn : PackageNode)
    (fs : String → Bool) (moveResp : Option RefactorWorkspaceEdit) : List Effect :=
  match pn.uri with
  | some pu =>
    if pu.fsPath != "" then
      let duplicatedFiles :=
        (fileUris.filter (collides fs pu.fsPath)).map fun u => getFileNameFromUri u.fsPath
      let moveUris := fileUris.filter fun u => !(collides fs pu.fsPath u)
      (if duplicatedFiles.isEmpty then []
       else [Effect.showWarning (duplicateWarningText duplicatedFiles pn.displayName)]) ++
        (if moveUris.isEmpty then [] else sendAndApply moveUris pn moveResp)
    else sendAndApply fileUris pn moveResp
  | none => sendAndApply fileUris pn moveResp

/-- `moveFile`: reject selections spanning directories, request the
destinations, reject an empty response, present the picker, and on a
choice run the commit phase.  `destResp` is the server's response,
`pick` the index the user chose (or `none` for dismissal), `fs` the
filesystem existence predicate, `moveResp` the `MoveRequest` response. -/
def moveFile (fileUris : List Uri) (destResp : Option MoveDestinations)
    (pick : Option Nat) (fs : String → Bool)
    (moveResp : Option RefactorWorkspaceEdit) : List Effect :=
  if hasCommonParent fileUris then
    Effect.sendGetMoveDestinations "moveResource" (fileUris.map (·.str)) ::
      (match destResp with
       | none => [Effect.showError noPackagesErrorMsg]
       | some md =>
         match md.destinations with
         | none => [Effect.showError noPackagesErrorMsg]
         | some [] => [Effect.showError noPackagesErrorMsg]
         | some (d :: ds) =>
           Effect.showQuickPick ((packageItems (d :: ds)).map (·.label)) ::
             (match pick with
              | none => []
              | some i =>
                match (packageItems (d :: ds)).get? i with
                | none => []
                | some item => moveFileCommit fileUris item.packageNode fs moveResp))
  else [Effect.showError diffDirErrorMsg]

/-- The exclusion set of `moveStaticMember`: the enclosing type name
when truthy, plus the member's qualified name when the declaration-kind
test passes.  Note the source tests `memberType === 55`,
`memeberType === 71` (misspelled property) and `memberType === 81`. -/
def staticMemberExclude (ci : CommandInfo) : List String :=
  if strTruthy ci.enclosingTypeName then
    let etn := ci.enclosingTypeName.getD ""
    if ci.memberType = some 55 ∨ ci.memeberType = some 71 ∨ ci.memberType = some 81 then
      [etn, etn ++ "." ++ ci.displayName.getD "undefined"]
    else [etn]
  else []

/-- The qualified name the filter compares against the exclusion set:
`containerName.name` when the container is truthy, else `name`. -/
def typeNameOf (s : SymbolInfo) : String :=
  if strTruthy s.containerName then s.containerName.getD "" ++ "." ++ s.name
  else s.name

/-- A picker item of the move-static-member flow. -/
structure SymbolItem where
  label : String
  description : String
  symbolNode : Option SymbolInfo
  alwaysShow : Bool
deriving DecidableEq, Repr

/-- The candidate list handed to the picker by `moveStaticMember`: on a
non-empty search result, the symbols not in the exclusion set, sorted by
name (the JavaScript comparator returns -1/0/1 from `<`/`>` on `name`),
mapped to items; otherwise the single placeholder item. -/
def staticMemberCandidates (ci : CommandInfo) (types : Option (List SymbolInfo)) :
    List SymbolItem :=
  match types with
  | some ts =>
    if ts.isEmpty then
      [⟨"No result found", "", none, true⟩]
    else
      ((ts.filter fun t => !((staticMemberExclude ci).contains (typeNameOf t))).insertionSort
          (fun a b => a.name ≤ b.name)).map
        fun s => ⟨s.name, s.containerName.getD "", some s, false⟩
  | none => [⟨"No result found", "", none, true⟩]

/-- `moveStaticMember`: search symbols, present the candidates, and when
the picked item carries a symbol send the move request and apply the
result.  `docUri` is `params.textDocument.uri`. -/
def moveStaticMember (ci : CommandInfo) (docUri : String)
    (types : Option (List SymbolInfo)) (pick : Option Nat)
    (moveResp : Option RefactorWorkspaceEdit) : List Effect :=
  let items := staticMemberCandidates ci types
  Effect.sendSearchSymbols "*" ci.projectName ::
    Effect.showQuickPick (items.map (·.label)) ::
      (match pick with
       | none => []
       | some i =>
         match items.get? i with
         | none => []
         | some item =>
           match item.symbolNode with
           | none => []
           | some sym =>
             Effect.sendMoveRequest "moveStaticMember" [docUri] (typeNameOf sym) ::
               applyRefactorEdit moveResp)

/-- The rename-trigger handler: open the document, compute the position,
invoke the editor rename command.  The whole body is wrapped in
`try { ... } catch { /- do nothing -/ }`, modelled by the failure cases
producing a normal (truncated) trace with no further effect.  The
`renameResult` outcome of the rename command is ignored entirely: the
command invocation is the last statement of the `try` block, so a
rejection is caught and changes nothing observable. -/
def renameHandler (pos : RenamePosition)
    (openResult : Except String (Option TextDocumentModel))
    (_renameResult : Except String Unit) : List Effect :=
  Effect.openDocument pos.uri ::
    match openResult with
    | .error _ => []
    | .ok none => []
    | .ok (some doc) => [Effect.executeRenameCommand doc.uri (doc.positionAt pos.offset)]

/-- URIs a document change mentions (for the well-ordering side
condition on edits). -/
def urisOf : DocumentChange → List String
  | .rename o n => [o, n]
  | .delete u => [u]
  | .create u => [u]
  | .textEdit u => [u]

/-- A `documentChanges` sequence is well ordered when no change refers
to a URI after that URI has been renamed away or deleted, and no rename
maps a URI to itself.  Any sequentially applicable edit satisfies this. -/
def wellOrderedB : List DocumentChange → Bool
  | [] => true
  | .rename o n :: cs =>
    (o != n) && !(decide (o ∈ cs.flatMap urisOf)) && wellOrderedB cs
  | .delete u :: cs => !(decide (u ∈ cs.flatMap urisOf)) && wellOrderedB cs
  | .create _ :: cs => wellOrderedB cs
  | .textEdit _ :: cs => wellOrderedB cs

/-- Final identity of a URI under the remaining document changes:
renames are followed, a deletion yields `none`. -/
def finalId : List DocumentChange → String → Option String
  | [], u => some u
  | .rename o n :: cs, u => if u = o then finalId cs n else finalId cs u
  | .delete d :: cs, u => if u = d then none else finalId cs u
  | .create _ :: cs, u => finalId cs u
  | .textEdit _ :: cs, u => finalId cs u

/-- Final identities of the documents touched by the text-document edits
of a change sequence, each mapped through the changes that follow it. -/
def textEditFinals : List DocumentChange → List String
  | [] => []
  | .textEdit u :: cs => (finalId cs u).toList ++ textEditFinals cs
  | .rename _ _ :: cs => textEditFinals cs
  | .delete _ :: cs => textEditFinals cs
  | .create _ :: cs => textEditFinals cs

/-- Follows the specification's words for claim C2: the set of documents
the edit touches (the `changes` keys and the text-document edits),
identified by their final identity after the renames and deletions. -/
def specFinalTouched (e : WorkspaceEdit) : List String :=
  let dcs := e.documentChanges.getD []
  (e.changes.getD []).filterMap (finalId dcs) ++ textEditFinals dcs

/-- Concrete file URI used by the witnesses: `/p/A.java`. -/
def uriA : Uri := ⟨"file:///p/A.java", "/p/A.java"⟩

/-- Concrete file URI in the same directory as `uriA`. -/
def uriB : Uri := ⟨"file:///p/B.java", "/p/B.java"⟩

/-- Concrete file URI in a different directory (`/q`). -/
def uriC : Uri := ⟨"file:///q/C.java", "/q/C.java"⟩

/-- Concrete destination package with URI `/q`. -/
def pkgQ : PackageNode := ⟨some ⟨"file:///q", "/q"⟩, "/q", "q", false⟩

/-- A workspace edit touching only `/p/A.java` through its `changes` map. -/
def editA : WorkspaceEdit := ⟨some ["file:///p/A.java"], none⟩

/-- A move result carrying both an error message and an edit. -/
def resultErrEdit : RefactorWorkspaceEdit :=
  ⟨some "move failed", some editA, some ⟨"java.action.cleanup", some ["arg1"]⟩⟩

/-- A workspace edit that edits `/p/A.java` and renames it to `/q/A.java`. -/
def editRen : WorkspaceEdit :=
  ⟨some ["file:///p/A.java"],
   some [DocumentChange.rename "file:///p/A.java" "file:///q/A.java"]⟩

/-- A workspace edit whose text edit refers to a URI after it was renamed
away: the save step then targets the stale (old) URI. -/
def editStale : WorkspaceEdit :=
  ⟨none,
   some [DocumentChange.rename "file:///p/A.java" "file:///p/B.java",
         DocumentChange.textEdit "file:///p/A.java"]⟩

/-- Concrete `commandInfo` of a static Enum member (declaration kind 71). -/
def ciEnum : CommandInfo :=
  ⟨some "E", some "p.Outer", some 71, none, some "proj"⟩

instance : IsTotal SymbolInfo (fun a b => a.name ≤ b.name) :=
  ⟨fun a b => le_total a.name b.name⟩

instance : IsTrans SymbolInfo (fun a b => a.name ≤ b.name) :=
  ⟨fun _ _ _ h1 h2 => le_trans h1 h2⟩

theorem mem_listAdd {s : List String} {u v : String} :
    v ∈ listAdd s u ↔ v ∈ s ∨ v = u := by
  unfold listAdd
  by_cases h : u ∈ s
  · rw [if_pos h]
    constructor
    · exact Or.inl
    · rintro (hv | rfl)
      · exact hv
      · exact h
  · rw [if_neg h]
    simp

theorem mem_listDel {s : List String} {u v : String} :
    v ∈ listDel s u ↔ v ∈ s ∧ v ≠ u := by
  simp [listDel]

theorem mem_foldl_listAdd (l : List String) :
    ∀ (s : List String) (v : String), v ∈ l.foldl listAdd s ↔ v ∈ s ∨ v ∈ l := by
  induction l with
  | nil => simp
  | cons a l ih =>
    intro s v
    simp only [List.foldl_cons, ih, mem_listAdd, List.mem_cons]
    tauto

theorem mem_foldl_touchedStep (dcs : List DocumentChange) :
    ∀ (s : List String) (u : String),
      u ∈ dcs.foldl touchedStep s ↔
        (∃ v ∈ s, finalId dcs v = some u) ∨ u ∈ textEditFinals dcs := by
  induction dcs with
  | nil => intro s u; simp [finalId, textEditFinals]
  | cons c cs ih =>
    intro s u
    cases c with
    | rename o n =>
      simp only [List.foldl_cons, touchedStep, finalId, textEditFinals]
      rw [ih]
      by_cases ho : o ∈ s
      · rw [if_pos ho]
        constructor
        · rintro (⟨v, hv, hf⟩ | hte)
          · rw [mem_listAdd, mem_listDel] at hv
            rcases hv with ⟨hvs, hvo⟩ | rfl
            · exact Or.inl ⟨v, hvs, by rwa [if_neg hvo]⟩
            · exact Or.inl ⟨o, ho, by rwa [if_pos rfl]⟩
          · exact Or.inr hte
        · rintro (⟨v, hv, hf⟩ | hte)
          · by_cases hvo : v = o
            · subst hvo
              rw [if_pos rfl] at hf
              exact Or.inl ⟨n, by rw [mem_listAdd]; exact Or.inr rfl, hf⟩
            · rw [if_neg hvo] at hf
              exact Or.inl ⟨v, by rw [mem_listAdd, mem_listDel]; exact Or.inl ⟨hv, hvo⟩, hf⟩
          · exact Or.inr hte
      · rw [if_neg ho]
        constructor
        · rintro (⟨v, hv, hf⟩ | hte)
          · exact Or.inl ⟨v, hv, by rw [if_neg (show ¬v = o from fun h => ho (h ▸ hv))]; exact hf⟩
          · exact Or.inr hte
        · rintro (⟨v, hv, hf⟩ | hte)
          · rw [if_neg (show ¬v = o from fun h => ho (h ▸ hv))] at hf
            exact Or.inl ⟨v, hv, hf⟩
          · exact Or.inr hte
    | delete d =>
      simp only [List.foldl_cons, touchedStep, finalId, textEditFinals]
      rw [ih]
      constructor
      · rintro (⟨v, hv, hf⟩ | hte)
        · rw [mem_listDel] at hv
          exact Or.inl ⟨v, hv.1, by rw [if_neg hv.2]; exact hf⟩
        · exact Or.inr hte
      · rintro (⟨v, hv, hf⟩ | hte)
        · by_cases hvd : v = d
          · rw [if_pos hvd] at hf
            exact absurd hf (by simp)
          · rw [if_neg hvd] at hf
            exact Or.inl ⟨v, by rw [mem_listDel]; exact ⟨hv, hvd⟩, hf⟩
        · exact Or.inr hte
    | create cu =>
      simp only [List.foldl_cons, touchedStep, finalId, textEditFinals]
      exact ih s u
    | textEdit t =>
      simp only [List.foldl_cons, touchedStep, finalId, textEditFinals]
      rw [ih]
      constructor
      · rintro (⟨v, hv, hf⟩ | hte)
        · rw [mem_listAdd] at hv
          rcases hv with hvs | rfl
          · exact Or.inl ⟨v, hvs, hf⟩
          · exact Or.inr (by rw [List.mem_append]; exact Or.inl (by simp [hf]))
        · exact Or.inr (by rw [List.mem_append]; exact Or.inr hte)
      · rintro (⟨v, hv, hf⟩ | hte)
        · exact Or.inl ⟨v, by rw [mem_listAdd]; exact Or.inl hv, hf⟩
        · rw [List.mem_append] at hte
          rcases hte with h1 | h2
          · exact Or.inl ⟨t, by rw [mem_listAdd]; exact Or.inr rfl, by simpa using h1⟩
          · exact Or.inr h2

theorem mem_touchedFiles (e : WorkspaceEdit) (u : String) :
    u ∈ touchedFiles e ↔ u ∈ specFinalTouched e := by
  unfold touchedFiles specFinalTouched
  rw [mem_foldl_touchedStep]
  simp only [List.mem_append, List.mem_filterMap]
  constructor
  · rintro (⟨v, hv, hf⟩ | hte)
    · rw [mem_foldl_listAdd] at hv
      simp only [List.not_mem_nil, false_or] at hv
      exact Or.inl ⟨v, hv, hf⟩
    · exact Or.inr hte
  · rintro (⟨v, hv, hf⟩ | hte)
    · exact Or.inl ⟨v, by rw [mem_foldl_listAdd]; exact Or.inr hv, hf⟩
    · exact Or.inr hte

theorem not_mem_foldl_of_not_mentioned (dcs : List DocumentChange) :
    ∀ (s : List String) (u : String), u ∉ s → (∀ c ∈ dcs, u ∉ urisOf c) →
      u ∉ dcs.foldl touchedStep s := by
  induction dcs with
  | nil => intro s u hu _; simpa using hu
  | cons c cs ih =>
    intro s u hu hm
    simp only [List.foldl_cons]
    refine ih _ u ?_ fun d hd => hm d (List.mem_cons_of_mem _ hd)
    have hmc := hm c (List.mem_cons_self c cs)
    cases c with
    | rename o n =>
      simp only [urisOf, List.mem_cons, List.not_mem_nil, or_false, not_or] at hmc
      simp only [touchedStep]
      by_cases ho : o ∈ s
      · rw [if_pos ho, mem_listAdd, mem_listDel]
        rintro (⟨hus, _⟩ | rfl)
        · exact hu hus
        · exact hmc.2 rfl
      · rwa [if_neg ho]
    | delete d =>
      simp only [touchedStep]
      rw [mem_listDel]
      rintro ⟨hus, _⟩
      exact hu hus
    | create cu =>
      exact hu
    | textEdit t =>
      simp only [urisOf, List.mem_cons, List.not_mem_nil, or_false] at hmc
      simp only [touchedStep]
      rw [mem_listAdd]
      rintro (hus | rfl)
      · exact hu hus
      · exact hmc rfl

theorem wellOrderedB_tail {c : DocumentChange} {cs : List DocumentChange}
    (h : wellOrderedB (c :: cs) = true) : wellOrderedB cs = true := by
  cases c <;> simp only [wellOrderedB, Bool.and_eq_true] at h ⊢ <;> tauto

theorem rename_old_not_in_foldl :
    ∀ (dcs : List DocumentChange), wellOrderedB dcs = true →
    ∀ (o n : String), DocumentChange.rename o n ∈ dcs →
    ∀ s : List String, o ∉ dcs.foldl touchedStep s := by
  intro dcs
  induction dcs with
  | nil => intro _ o n hmem; cases hmem
  | cons c cs ih =>
    intro hw o n hmem s
    rcases List.mem_cons.1 hmem with heq | hmem'
    · subst heq
      simp only [List.foldl_cons]
      have h1 : (o != n) = true ∧ o ∉ cs.flatMap urisOf := by
        simp only [wellOrderedB, Bool.and_eq_true, Bool.not_eq_true',
          decide_eq_false_iff_not] at hw
        exact ⟨hw.1.1, hw.1.2⟩
      refine not_mem_foldl_of_not_mentioned cs _ o ?_ ?_
      · simp only [touchedStep]
        by_cases ho : o ∈ s
        · rw [if_pos ho, mem_listAdd, mem_listDel]
          rintro (⟨_, hne⟩ | heq2)
          · exact hne rfl
          · exact (bne_iff_ne.mp h1.1) heq2
        · rwa [if_neg ho]
      · intro d hd hod
        exact h1.2 (List.mem_flatMap.2 ⟨d, hd, hod⟩)
    · simp only [List.foldl_cons]
      exact ih (wellOrderedB_tail hw) o n hmem' _

theorem delete_not_in_foldl :
    ∀ (dcs : List DocumentChange), wellOrderedB dcs = true →
    ∀ (u : String), DocumentChange.delete u ∈ dcs →
    ∀ s : List String, u ∉ dcs.foldl touchedStep s := by
  intro dcs
  induction dcs with
  | nil => intro _ u hmem; cases hmem
  | cons c cs ih =>
    intro hw u hmem s
    rcases List.mem_cons.1 hmem with heq | hmem'
    · subst heq
      simp only [List.foldl_cons]
      have h1 : u ∉ cs.flatMap urisOf := by
        simp only [wellOrderedB, Bool.and_eq_true, Bool.not_eq_true',
          decide_eq_false_iff_not] at hw
        exact hw.1
      refine not_mem_foldl_of_not_mentioned cs _ u ?_ ?_
      · simp only [touchedStep]
        rw [mem_listDel]
        rintro ⟨_, hne⟩
        exact hne rfl
      · intro d hd hud
        exact h1 (List.mem_flatMap.2 ⟨d, hd, hud⟩)
    · simp only [List.foldl_cons]
      exact ih (wellOrderedB_tail hw) u hmem' _

/-- C2 (amended): for every workspace edit whose document changes never
refer to a URI after it has been renamed away or deleted (true of any
sequentially applicable edit), the move-file save step saves exactly the
documents the edit touches, identified by their final identity: the
touched set equals the spec-side final-identity set, the old URI of every
rename is never saved, every deleted URI is never saved, and the save
effects are exactly the touched set. -/
theorem saveEdit_saves_final_identity (e : WorkspaceEdit)
    (hw : wellOrderedB (e.documentChanges.getD []) = true) :
    (∀ u, u ∈ touchedFiles e ↔ u ∈ specFinalTouched e) ∧
    (∀ o n, DocumentChange.rename o n ∈ e.documentChanges.getD [] →
      o ∉ touchedFiles e) ∧
    (∀ u, DocumentChange.delete u ∈ e.documentChanges.getD [] →
      u ∉ touchedFiles e) ∧
    (∀ u, Effect.saveDoc u ∈ saveEdit e ↔ u ∈ touchedFiles e) := by
  refine ⟨mem_touchedFiles e, ?_, ?_, ?_⟩
  · intro o n hmem
    exact rename_old_not_in_foldl _ hw o n hmem _
  · intro u hmem
    exact delete_not_in_foldl _ hw u hmem _
  · intro u
    simp [saveEdit, List.mem_map]

theorem saveEdit_saves_final_identity_witness :
    wellOrderedB ((editRen.documentChanges).getD []) = true ∧
      "file:///p/A.java" ∉ touchedFiles editRen ∧
      Effect.saveDoc "file:///q/A.java" ∈ saveEdit editRen :=
  ⟨by decide,
   (saveEdit_saves_final_identity editRen (by decide)).2.1 _ "file:///q/A.java" (by decide),
   by decide⟩

/-- C2 counterexample: in the edit `editStale` a text edit refers to
`/p/A.java` after it was renamed to `/p/B.java`; the save step then saves
the rename's old URI and not its new URI, so the claim as stated (the
save never targets the old URI of a rename) is false. -/
theorem saveEdit_stale_uri_counterexample :
    DocumentChange.rename "file:///p/A.java" "file:///p/B.java" ∈
        editStale.documentChanges.getD [] ∧
      Effect.saveDoc "file:///p/A.java" ∈ saveEdit editStale ∧
      Effect.saveDoc "file:///p/B.java" ∉ saveEdit editStale := by
  decide

theorem saveEdit_filter (p : Effect → Bool) (e : WorkspaceEdit) :
    (saveEdit e).filter p =
      ((touchedFiles e).filter fun u => p (Effect.saveDoc u)).map Effect.saveDoc := by
  unfold saveEdit
  generalize touchedFiles e = l
  induction l with
  | nil => rfl
  | cons a l ih => by_cases h : p (Effect.saveDoc a) <;> simp [h, ih]

theorem applyRefactorEdit_filters (x : Option RefactorWorkspaceEdit) :
    (applyRefactorEdit x).filter isSaveDoc = [] ∧
    (applyRefactorEdit x).filter isWarning = [] ∧
    (applyRefactorEdit x).filter isMoveRequest = [] := by
  match x with
  | none => exact ⟨rfl, rfl, rfl⟩
  | some r =>
    obtain ⟨em, ed, cm⟩ := r
    by_cases h : strTruthy em <;> cases ed <;> cases cm <;>
      simp [applyRefactorEdit, h, isSaveDoc, isWarning, isMoveRequest]

theorem sendAndApply_filter_isSaveDoc (uris : List Uri) (pn : PackageNode)
    (moveResp : Option RefactorWorkspaceEdit) :
    (sendAndApply uris pn moveResp).filter isSaveDoc =
      (match moveResp with
       | some r =>
         (match r.edit with
          | some e => saveEdit e
          | none => [])
       | none => []) := by
  have h1 := (applyRefactorEdit_filters moveResp).1
  match moveResp with
  | none => simp [sendAndApply, List.filter_append, h1, isSaveDoc]
  | some r =>
    match he : r.edit with
    | none => simp [sendAndApply, List.filter_append, h1, he, isSaveDoc]
    | some e =>
      simp [sendAndApply, List.filter_append, h1, he, isSaveDoc, saveEdit_filter, saveEdit]

theorem sendAndApply_filter_isWarning (uris : List Uri) (pn : PackageNode)
    (moveResp : Option RefactorWorkspaceEdit) :
    (sendAndApply uris pn moveResp).filter isWarning = [] := by
  have h1 := (applyRefactorEdit_filters moveResp).2.1
  match moveResp with
  | none => simp [sendAndApply, List.filter_append, h1, isWarning]
  | some r =>
    match he : r.edit with
    | none => simp [sendAndApply, List.filter_append, h1, he, isWarning]
    | some e =>
      simp [sendAndApply, List.filter_append, h1, he, isWarning, saveEdit_filter]

theorem sendAndApply_filter_isMoveRequest (uris : List Uri) (pn : PackageNode)
    (moveResp : Option RefactorWorkspaceEdit) :
    (sendAndApply uris pn moveResp).filter isMoveRequest =
      [Effect.sendMoveRequest "moveResource" (uris.map (·.str)) pn.displayName] := by
  have h1 := (applyRefactorEdit_filters moveResp).2.2
  match moveResp with
  | none => simp [sendAndApply, List.filter_append, h1, isMoveRequest]
  | some r =>
    match he : r.edit with
    | none => simp [sendAndApply, List.filter_append, h1, he, isMoveRequest]
    | some e =>
      simp [sendAndApply, List.filter_append, h1, he, isMoveRequest, saveEdit_filter]

/-- C1 (amended): for every refactor result carrying a truthy error
message, `applyRefactorEdit` displays exactly that message, unchanged,
and performs no edit application and no command execution; in the
move-file flow the post-request phase performs no document saves when
the result carries no edit, but when the result also carries an edit the
edit's touched documents are still saved despite the error. -/
theorem applyRefactorEdit_error_stops (r : RefactorWorkspaceEdit) (m : String)
    (hm : r.errorMessage = some m) (hne : m ≠ "") :
    applyRefactorEdit (some r) = [Effect.showError m] ∧
    (r.edit = none → ∀ uris pn,
      (sendAndApply uris pn (some r)).filter isSaveDoc = []) ∧
    (∀ e, r.edit = some e → ∀ uris pn,
      (sendAndApply uris pn (some r)).filter isSaveDoc = saveEdit e) := by
  have htr : strTruthy (some m) = true := by
    simpa [strTruthy] using hne
  refine ⟨?_, ?_, ?_⟩
  · simp [applyRefactorEdit, hm, htr]
  · intro hed uris pn
    rw [sendAndApply_filter_isSaveDoc]
    simp [hed]
  · intro e hed uris pn
    rw [sendAndApply_filter_isSaveDoc]
    simp [hed]

theorem applyRefactorEdit_error_stops_witness :
    resultErrEdit.errorMessage = some "move failed" ∧
      applyRefactorEdit (some resultErrEdit) = [Effect.showError "move failed"] :=
  ⟨rfl, (applyRefactorEdit_error_stops resultErrEdit "move failed" rfl (by decide)).1⟩

/-- C1 counterexample: a complete move-file run whose `MoveRequest`
result carries both an error message and an edit shows the error and
applies nothing, yet the flow still saves the edit's touched document,
so the claim's "no document saves are performed, even if the result also
contains an edit" is false as stated. -/
theorem moveFile_saves_despite_error_counterexample :
    Effect.showError "move failed" ∈
        moveFile [uriA] (some ⟨some [pkgQ]⟩) (some 0) (fun _ => false) (some resultErrEdit) ∧
      Effect.saveDoc "file:///p/A.java" ∈
        moveFile [uriA] (some ⟨some [pkgQ]⟩) (some 0) (fun _ => false) (some resultErrEdit) ∧
      Effect.applyEdit editA ∉
        moveFile [uriA] (some ⟨some [pkgQ]⟩) (some 0) (fun _ => false) (some resultErrEdit) := by
  decide

/-- C8: a refactor result with no error message carrying both an edit
and a follow-up command yields exactly the trace that applies the edit
first and then executes the carried command with exactly its carried
arguments (an absent argument array gives an argument-free call). -/
theorem applyRefactorEdit_edit_then_command (r : RefactorWorkspaceEdit)
    (e : WorkspaceEdit) (c : CommandData)
    (hne : r.errorMessage = none) (he : r.edit = some e) (hc : r.command = some c) :
    applyRefactorEdit (some r) =
      [Effect.applyEdit e, Effect.executeCommand c.command (c.arguments.getD [])] := by
  simp [applyRefactorEdit, strTruthy, hne, he, hc]

theorem applyRefactorEdit_edit_then_command_witness :
    applyRefactorEdit (some ⟨none, some editA, some ⟨"java.action.cleanup", some ["arg1"]⟩⟩) =
      [Effect.applyEdit editA, Effect.executeCommand "java.action.cleanup" ["arg1"]] :=
  applyRefactorEdit_edit_then_command _ editA ⟨"java.action.cleanup", some ["arg1"]⟩ rfl rfl rfl

theorem dropCommon_snd_subset : ∀ as bs : List String, (dropCommon as bs).2 ⊆ bs := by
  intro as
  induction as with
  | nil => intro bs; simp [dropCommon]
  | cons a as ih =>
    intro bs
    cases bs with
    | nil => simp [dropCommon]
    | cons b bs =>
      by_cases h : a = b
      · simp only [dropCommon, if_pos h]
        exact (ih bs).trans (List.subset_cons_self _ _)
      · simp [dropCommon, if_neg h]

theorem length_zero_eq_empty (s : String) (h : s.length = 0) : s = "" := by
  cases s with
  | mk data =>
    have hd : data = [] := by simpa [String.length] using h
    subst hd
    rfl

theorem joinRel_ne_dot : ∀ l : List String, (∀ s ∈ l, s ≠ "" ∧ s ≠ ".") → joinRel l ≠ "." := by
  intro l hl
  match l with
  | [] => decide
  | [s] => simpa [joinRel] using (hl s (by simp)).2
  | s :: r :: rest =>
    have hs := (hl s (by simp)).1
    intro heq
    have hlen := congrArg String.length heq
    have hjr : joinRel (s :: r :: rest) = s ++ "/" ++ joinRel (r :: rest) := rfl
    rw [hjr] at hlen
    simp only [String.length_append] at hlen
    have h1 : ("/" : String).length = 1 := rfl
    have h2 : ("." : String).length = 1 := rfl
    have hs1 : s.length ≠ 0 := fun h0 => hs (length_zero_eq_empty s h0)
    omega

theorem pathRelative_ne_dot (a b : String) : pathRelative a b ≠ "." := by
  unfold pathRelative
  refine joinRel_ne_dot _ ?_
  intro s hs
  rw [List.mem_append] at hs
  rcases hs with hs | hs
  · rw [List.eq_of_mem_replicate hs]
    exact ⟨by decide, by decide⟩
  · have hb := dropCommon_snd_subset (pathSegs a) (pathSegs b) hs
    rw [pathSegs, List.mem_filter] at hb
    have h2 := hb.2
    simp only [Bool.and_eq_true, bne_iff_ne] at h2
    exact h2

/-- C5: a move-file invocation over files whose parent directories are
not all the same produces exactly the different-directories error and
nothing else — in particular no `GetMoveDestinations` and no
`MoveRequest` is sent; and any list of at most one file passes the
common-parent check. -/
theorem moveFile_different_dirs (fileUris : List Uri) (destResp : Option MoveDestinations)
    (pick : Option Nat) (fs : String → Bool) (moveResp : Option RefactorWorkspaceEdit)
    (h : ∃ u ∈ fileUris, ∃ v ∈ fileUris, dirname u.fsPath ≠ dirname v.fsPath) :
    moveFile fileUris destResp pick fs moveResp = [Effect.showError diffDirErrorMsg] ∧
    (∀ l : List Uri, l.length ≤ 1 → hasCommonParent l = true) := by
  have hf : hasCommonParent fileUris = false := by
    rcases h with ⟨u, hu, v, hv, hne⟩
    cases fileUris with
    | nil => exact absurd hu (List.not_mem_nil u)
    | cons a rest =>
      cases rest with
      | nil =>
        rw [List.mem_singleton] at hu hv
        subst hu
        subst hv
        exact absurd rfl hne
      | cons b rest2 =>
        have hb : (pathRelative (dirname a.fsPath) (dirname b.fsPath) == ".") = false :=
          beq_eq_false_iff_ne.mpr (pathRelative_ne_dot _ _)
        simp [hasCommonParent, List.all_cons, hb]
  constructor
  · simp [moveFile, hf]
  · intro l hl
    match l with
    | [] => rfl
    | [x] => rfl
    | x :: y :: rest =>
      simp only [List.length_cons] at hl
      omega

theorem moveFile_different_dirs_witness :
    moveFile [uriA, uriC] none none (fun _ => false) none = [Effect.showError diffDirErrorMsg] :=
  (moveFile_different_dirs [uriA, uriC] none none (fun _ => false) none (by decide)).1

/-- C7: when the destination response of a move-file invocation contains
exactly one candidate, the picker is still presented, with exactly that
one item — the trace begins with the destination request followed by a
quick pick over a single label. -/
theorem moveFile_single_candidate_shows_picker (fileUris : List Uri) (d : PackageNode)
    (pick : Option Nat) (fs : String → Bool) (moveResp : Option RefactorWorkspaceEdit)
    (hcp : hasCommonParent fileUris = true) :
    (moveFile fileUris (some ⟨some [d]⟩) pick fs moveResp).take 2 =
      [Effect.sendGetMoveDestinations "moveResource" (fileUris.map (·.str)),
       Effect.showQuickPick [(if d.isParentOfSelectedFile then "* " else "") ++ d.displayName]] := by
  simp [moveFile, hcp, packageItems]

theorem moveFile_single_candidate_shows_picker_witness :
    (moveFile [uriA] (some ⟨some [pkgQ]⟩) none (fun _ => false) none).take 2 =
      [Effect.sendGetMoveDestinations "moveResource" ["file:///p/A.java"],
       Effect.showQuickPick ["q"]] :=
  (moveFile_single_candidate_shows_picker [uriA] pkgQ none (fun _ => false) none
    (by decide)).trans (by decide)

/-- C3: in a move-file invocation whose chosen destination has a URI
with a non-empty filesystem path and where at least one selected file
collides with an existing entry of the destination directory, exactly
one warning is shown and it lists exactly the names of the colliding
files; the move request, if any, carries exactly the non-colliding
files, and when every selected file collides no move request is sent. -/
theorem moveFile_collision_filter (fileUris : List Uri) (dests : List PackageNode)
    (i : Nat) (item : PackageItem) (pu : Uri) (fs : String → Bool)
    (moveResp : Option RefactorWorkspaceEdit)
    (hcp : hasCommonParent fileUris = true)
    (hitem : (packageItems dests)[i]? = some item)
    (hu : item.packageNode.uri = some pu)
    (hfsp : pu.fsPath ≠ "")
    (hdup : ∃ u ∈ fileUris, collides fs pu.fsPath u = true) :
    ((moveFile fileUris (some ⟨some dests⟩) (some i) fs moveResp).filter isWarning =
      [Effect.showWarning (duplicateWarningText
        ((fileUris.filter (collides fs pu.fsPath)).map fun u => getFileNameFromUri u.fsPath)
        item.packageNode.displayName)]) ∧
    ((moveFile fileUris (some ⟨some dests⟩) (some i) fs moveResp).filter isMoveRequest =
      (if (fileUris.filter fun u => !(collides fs pu.fsPath u)).isEmpty then []
       else [Effect.sendMoveRequest "moveResource"
         ((fileUris.filter fun u => !(collides fs pu.fsPath u)).map (·.str))
         item.packageNode.displayName])) := by
  match dests with
  | [] => simp [packageItems] at hitem
  | d :: ds =>
    have hdupE : ((fileUris.filter (collides fs pu.fsPath)).map
        fun u => getFileNameFromUri u.fsPath).isEmpty = false := by
      rcases hdup with ⟨u, hu2, hcol⟩
      have hfil : u ∈ fileUris.filter (collides fs pu.fsPath) :=
        List.mem_filter.2 ⟨hu2, hcol⟩
      have hne2 : fileUris.filter (collides fs pu.fsPath) ≠ [] :=
        List.ne_nil_of_mem hfil
      simpa [List.isEmpty_iff] using hne2
    have hmf : moveFile fileUris (some ⟨some (d :: ds)⟩) (some i) fs moveResp =
        Effect.sendGetMoveDestinations "moveResource" (fileUris.map (·.str)) ::
          Effect.showQuickPick ((packageItems (d :: ds)).map (·.label)) ::
            moveFileCommit fileUris item.packageNode fs moveResp := by
      simp [moveFile, hcp, hitem]
    have hcommit : moveFileCommit fileUris item.packageNode fs moveResp =
        Effect.showWarning (duplicateWarningText
            ((fileUris.filter (collides fs pu.fsPath)).map fun u => getFileNameFromUri u.fsPath)
            item.packageNode.displayName) ::
          (if (fileUris.filter fun u => !(collides fs pu.fsPath u)).isEmpty then []
           else sendAndApply (fileUris.filter fun u => !(collides fs pu.fsPath u))
             item.packageNode moveResp) := by
      simp only [moveFileCommit, hu]
      rw [if_pos (bne_iff_ne.mpr hfsp), hdupE]
      simp
    rw [hmf, hcommit]
    by_cases hmv : (fileUris.filter fun u => !(collides fs pu.fsPath u)).isEmpty
    · simp [hmv, List.filter_cons, isWarning, isMoveRequest]
    · constructor
      · simp [hmv, List.filter_cons, isWarning, isMoveRequest,
          sendAndApply_filter_isWarning]
      · simp [hmv, List.filter_cons, isWarning, isMoveRequest,
          sendAndApply_filter_isMoveRequest]

theorem moveFile_collision_filter_witness :
    ((moveFile [uriA] (some ⟨some [pkgQ]⟩) (some 0)
          (fun p => p == "/q/A.java") none).filter isWarning =
      [Effect.showWarning (duplicateWarningText ["A.java"] "q")]) ∧
    ((moveFile [uriA] (some ⟨some [pkgQ]⟩) (some 0)
          (fun p => p == "/q/A.java") none).filter isMoveRequest = []) := by
  have h := moveFile_collision_filter [uriA] [pkgQ] 0 ⟨"q", pkgQ⟩
    ⟨"file:///q", "/q"⟩ (fun p => p == "/q/A.java") none
    (by decide) (by decide) (by decide) (by decide) (by decide)
  exact ⟨h.1.trans (by decide), h.2.trans (by decide)⟩

/-- C6: the rename-trigger handler terminates normally on every input —
including a failing document open and a failing rename invocation —
reports no error and no warning, and produces the same trace whether or
not the rename invocation fails (failures are silently swallowed). -/
theorem renameHandler_silent (pos : RenamePosition)
    (openResult : Except String (Option TextDocumentModel))
    (renameResult : Except String Unit) :
    (∀ e ∈ renameHandler pos openResult renameResult, isErrorReport e = false) ∧
    renameHandler pos openResult renameResult =
      renameHandler pos openResult (Except.ok ()) := by
  refine ⟨?_, rfl⟩
  intro e he
  match openResult with
  | .error s =>
    simp only [renameHandler, List.mem_singleton, List.mem_cons, List.not_mem_nil,
      or_false] at he
    subst he
    rfl
  | .ok none =>
    simp only [renameHandler, List.mem_singleton, List.mem_cons, List.not_mem_nil,
      or_false] at he
    subst he
    rfl
  | .ok (some doc) =>
    simp only [renameHandler, List.mem_cons, List.not_mem_nil, or_false] at he
    rcases he with rfl | rfl
    · rfl
    · rfl

theorem renameHandler_silent_witness :
    isErrorReport (Effect.openDocument "file:///p/A.java") = false :=
  (renameHandler_silent ⟨"file:///p/A.java", 3⟩ (Except.error "open failed")
    (Except.error "rename failed")).1 _ (by simp [renameHandler])

/-- C9: for every non-empty symbol list returned by the search in the
static-member move flow, the candidate items handed to the picker are in
non-decreasing order of symbol name (each item's label is its symbol's
name). -/
theorem staticMemberCandidates_sorted (ci : CommandInfo) (ts : List SymbolInfo)
    (h : ts ≠ []) :
    List.Pairwise (fun a b => a ≤ b)
      ((staticMemberCandidates ci (some ts)).map (·.label)) := by
  simp only [staticMemberCandidates]
  rw [if_neg (show ¬ts.isEmpty = true by simpa [List.isEmpty_iff] using h)]
  rw [List.map_map]
  have hs := List.sorted_insertionSort (fun a b : SymbolInfo => a.name ≤ b.name)
    (ts.filter fun t => !((staticMemberExclude ci).contains (typeNameOf t)))
  exact List.Pairwise.map _ (fun a b hab => hab) hs

theorem staticMemberCandidates_sorted_witness :
    ([(⟨"b", none⟩ : SymbolInfo), ⟨"a", none⟩] ≠ ([] : List SymbolInfo)) ∧
      List.Pairwise (fun a b => a ≤ b)
        ((staticMemberCandidates ciEnum
            (some [⟨"b", none⟩, ⟨"a", none⟩])).map (·.label)) :=
  ⟨by decide, staticMemberCandidates_sorted ciEnum _ (by decide)⟩

/-- C10: when the symbol search of the static-member move returns no
list or an empty list, the picker receives exactly one placeholder item
labeled "No result found" carrying no symbol, and no move request is
sent regardless of what the user picks. -/
theorem moveStaticMember_no_result (ci : CommandInfo) (docUri : String)
    (types : Option (List SymbolInfo)) (moveResp : Option RefactorWorkspaceEdit)
    (h : types = none ∨ types = some []) :
    staticMemberCandidates ci types = [⟨"No result found", "", none, true⟩] ∧
    ∀ pick, (moveStaticMember ci docUri types pick moveResp).filter isMoveRequest = [] := by
  have hc : staticMemberCandidates ci types = [⟨"No result found", "", none, true⟩] := by
    rcases h with rfl | rfl
    · rfl
    · rfl
  refine ⟨hc, ?_⟩
  intro pick
  simp only [moveStaticMember, hc]
  match pick with
  | none => rfl
  | some 0 => rfl
  | some (j + 1) => simp [isMoveRequest]

theorem moveStaticMember_no_result_witness :
    staticMemberCandidates ciEnum none = [⟨"No result found", "", none, true⟩] ∧
      (moveStaticMember ciEnum "file:///p/A.java" none (some 0) none).filter
          isMoveRequest = [] :=
  ⟨(moveStaticMember_no_result ciEnum "file:///p/A.java" none none (Or.inl rfl)).1,
   (moveStaticMember_no_result ciEnum "file:///p/A.java" none none (Or.inl rfl)).2 (some 0)⟩

/-- C4: code bug — the source's own comment ("55: Type, 71: Enum, 81:
AnnotationType") documents that declaration kinds 55, 71 and 81 exclude
the member's qualified name from the candidates, but the 71 comparison
reads the misspelled property `memeberType`, so for an Enum member
(memberType 71) only the enclosing type is excluded and the member's own
qualified name survives into the candidate list, while kind 55 behaves
as documented and the enclosing type is excluded in both cases. -/
theorem moveStaticMember_enum_kind_typo :
    staticMemberExclude ciEnum = ["p.Outer"] ∧
    (staticMemberCandidates ciEnum (some [⟨"E", some "p.Outer"⟩])).map (·.label) = ["E"] ∧
    (staticMemberCandidates ciEnum (some [⟨"Outer", some "p"⟩])).map (·.label) = [] ∧
    staticMemberExclude { ciEnum with memberType := some 55 } = ["p.Outer", "p.Outer.E"] ∧
    (staticMemberCandidates { ciEnum with memberType := some 55 }
        (some [⟨"E", some "p.Outer"⟩])).map (·.label) = [] := by
  decide

end RefactorAction
